import Mathlib

/-!
Verification of the decision-tree design-pattern module (`tree_design.py`,
demonstrated by `tree_demo.py`).

The node hierarchy is modelled as an inductive type: a `DecisionNode` owns an
ordered list of children, a `LeafNode` holds a string label.  The Python
iterator keeps its stack in a Python list whose *end* is the stack top
(`pop()` removes the last element, `append` pushes at the end); here the stack
is a Lean list whose *head* is the stack top, i.e. the reverse of the Python
list.  Pushing `reversed(children)` one by one at the Python end is therefore
prepending `children` in order at the Lean head.
-/

/-- Tree nodes: `decision` (internal, ordered children) or `leaf` (string label).
Mirrors `DecisionNode` / `LeafNode` of `tree_design.py`. -/
inductive Node where
  | decision (children : List Node) : Node
  | leaf (value : String) : Node
deriving Repr

/-- `DecisionNode.add_child_node`: appends a node at the end of the children
list (`self.children.append(node)`). -/
def add_child_node (children : List Node) (node : Node) : List Node :=
  children ++ [node]

mutual
/-- Number of nodes of a tree (used as a termination measure). -/
def Node.size : Node → Nat
  | .decision cs => 1 + sizeList cs
  | .leaf _ => 1

/-- Total number of nodes of a list of trees. -/
def sizeList : List Node → Nat
  | [] => 0
  | n :: rest => n.size + sizeList rest
end

mutual
/-- Mathematical pre-order: the node itself, then the pre-orders of its
children left to right. -/
def Node.preorder : Node → List Node
  | .decision cs => .decision cs :: preorderList cs
  | .leaf v => [.leaf v]

/-- Concatenated pre-orders of a list of trees, left to right. -/
def preorderList : List Node → List Node
  | [] => []
  | n :: rest => n.preorder ++ preorderList rest
end

/-- State of `PreOrderIterator`: the traversal stack (head = top). -/
structure PreOrderIterator where
  stack : List Node
deriving Repr

/-- `PreOrderIterator.__init__`: stack holds the root if one was given
(`[root] if root else []`; a node object is always truthy). -/
def PreOrderIterator.init (root : Option Node) : PreOrderIterator :=
  { stack := match root with | some r => [r] | none => [] }

/-- `PreOrderIterator.__iter__` returns the iterator object itself. -/
def PreOrderIterator.iterSelf (it : PreOrderIterator) : PreOrderIterator :=
  it

/-- `PreOrderIterator.__next__`: on an empty stack signal exhaustion
(`StopIteration`, here `none`); otherwise pop the top node, push its children
(for a decision node) so that the leftmost child is on top, and yield it. -/
def PreOrderIterator.next : PreOrderIterator → Option (Node × PreOrderIterator)
  | ⟨[]⟩ => none
  | ⟨node :: rest⟩ =>
      some (node,
        ⟨match node with
         | .decision cs => cs ++ rest
         | .leaf _ => rest⟩)

theorem sizeList_append (l₁ l₂ : List Node) :
    sizeList (l₁ ++ l₂) = sizeList l₁ + sizeList l₂ := by
  induction l₁ with
  | nil => simp [sizeList]
  | cons n rest ih => simp [sizeList, ih]; omega

theorem Node.size_pos (n : Node) : 0 < n.size := by
  cases n <;> simp [Node.size]

theorem next_sizeList {it it' : PreOrderIterator} {n : Node}
    (h : it.next = some (n, it')) :
    sizeList it'.stack < sizeList it.stack := by
  obtain ⟨stack⟩ := it
  cases stack with
  | nil => simp [PreOrderIterator.next] at h
  | cons node rest =>
      simp [PreOrderIterator.next] at h
      obtain ⟨hn, hit⟩ := h
      subst hn
      cases node with
      | decision cs =>
          simp [← hit, sizeList, sizeList_append, Node.size]
      | leaf v =>
          simp [← hit, sizeList, Node.size]

/-- Fully consuming the iterator (the `for node in iterator` loop of
`tree_demo.py`): repeatedly pull with `__next__` until exhaustion, returning
the yielded nodes in order together with the iterator's final state. -/
def PreOrderIterator.consume (it : PreOrderIterator) : List Node × PreOrderIterator :=
  match h : it.next with
  | none => ([], it)
  | some (n, it') =>
      let r := it'.consume
      (n :: r.1, r.2)
termination_by sizeList it.stack
decreasing_by exact next_sizeList h

/-- The list of nodes yielded by the iterator, in order. -/
def PreOrderIterator.drain (it : PreOrderIterator) : List Node :=
  it.consume.1

mutual
/-- `accept_visitor` with a `DepthVisitor`: the order in which nodes are
visited.  A decision node dispatches to `visit_decision`, which prints (the
visit) and then calls `accept_visitor` on each child in order; a leaf
dispatches to `visit_leaf`, which only prints. -/
def depthAccept : Node → List Node
  | .decision cs => .decision cs :: depthAcceptList cs
  | .leaf v => [.leaf v]

/-- The `for child in node.children` loop of `DepthVisitor.visit_decision`. -/
def depthAcceptList : List Node → List Node
  | [] => []
  | c :: rest => depthAccept c ++ depthAcceptList rest
end

mutual
/-- `accept_visitor` with a `CountLeavesVisitor`: the order in which nodes are
visited.  Same double-dispatch recursion as `DepthVisitor`, only the printed
text differs. -/
def countLeavesAccept : Node → List Node
  | .decision cs => .decision cs :: countLeavesAcceptList cs
  | .leaf v => [.leaf v]

/-- The `for child in node.children` loop of
`CountLeavesVisitor.visit_decision`. -/
def countLeavesAcceptList : List Node → List Node
  | [] => []
  | c :: rest => countLeavesAccept c ++ countLeavesAcceptList rest
end

theorem preorderList_append (l₁ l₂ : List Node) :
    preorderList (l₁ ++ l₂) = preorderList l₁ ++ preorderList l₂ := by
  induction l₁ with
  | nil => simp [preorderList]
  | cons n rest ih => simp [preorderList, ih]

/-- Core lemma: fully consuming an iterator whose stack holds the trees `l`
yields the concatenated pre-orders of `l` and ends with an empty stack. -/
theorem consume_spec : ∀ (fuel : Nat) (l : List Node), sizeList l ≤ fuel →
    PreOrderIterator.consume ⟨l⟩ = (preorderList l, ⟨[]⟩) := by
  intro fuel
  induction fuel with
  | zero =>
      intro l h
      cases l with
      | nil =>
          rw [PreOrderIterator.consume]
          simp [PreOrderIterator.next, preorderList]
      | cons n rest =>
          exfalso
          have := Node.size_pos n
          simp [sizeList] at h
          omega
  | succ fuel ih =>
      intro l h
      cases l with
      | nil =>
          rw [PreOrderIterator.consume]
          simp [PreOrderIterator.next, preorderList]
      | cons n rest =>
          cases n with
          | decision cs =>
              rw [PreOrderIterator.consume]
              simp only [PreOrderIterator.next]
              rw [ih (cs ++ rest) (by
                rw [sizeList_append]
                simp [sizeList, Node.size] at h
                omega)]
              simp [preorderList, Node.preorder, preorderList_append]
          | leaf v =>
              rw [PreOrderIterator.consume]
              simp only [PreOrderIterator.next]
              rw [ih rest (by
                simp [sizeList, Node.size] at h
                omega)]
              simp [preorderList, Node.preorder]

theorem consume_final (it : PreOrderIterator) :
    it.consume = (preorderList it.stack, ⟨[]⟩) := by
  obtain ⟨l⟩ := it
  exact consume_spec (sizeList l) l (le_refl _)

theorem drain_init (t : Node) :
    (PreOrderIterator.init (some t)).drain = t.preorder := by
  simp [PreOrderIterator.drain, PreOrderIterator.init, consume_final, preorderList]

theorem depthAcceptList_eq_preorderList :
    ∀ (fuel : Nat) (l : List Node), sizeList l ≤ fuel →
      depthAcceptList l = preorderList l := by
  intro fuel
  induction fuel with
  | zero =>
      intro l h
      cases l with
      | nil => simp [depthAcceptList, preorderList]
      | cons n rest =>
          exfalso
          have := Node.size_pos n
          simp [sizeList] at h
          omega
  | succ fuel ih =>
      intro l h
      cases l with
      | nil => simp [depthAcceptList, preorderList]
      | cons n rest =>
          have hrest : sizeList rest ≤ fuel := by
            have := Node.size_pos n
            simp [sizeList] at h
            omega
          cases n with
          | decision cs =>
              have hcs : sizeList cs ≤ fuel := by
                simp [sizeList, Node.size] at h
                omega
              simp [depthAcceptList, preorderList, depthAccept, Node.preorder,
                    ih cs hcs, ih rest hrest]
          | leaf v =>
              simp [depthAcceptList, preorderList, depthAccept, Node.preorder,
                    ih rest hrest]

theorem depthAccept_eq_preorder (t : Node) : depthAccept t = t.preorder := by
  cases t with
  | decision cs =>
      simp [depthAccept, Node.preorder,
            depthAcceptList_eq_preorderList (sizeList cs) cs (le_refl _)]
  | leaf v => simp [depthAccept, Node.preorder]

theorem countLeavesAcceptList_eq_preorderList :
    ∀ (fuel : Nat) (l : List Node), sizeList l ≤ fuel →
      countLeavesAcceptList l = preorderList l := by
  intro fuel
  induction fuel with
  | zero =>
      intro l h
      cases l with
      | nil => simp [countLeavesAcceptList, preorderList]
      | cons n rest =>
          exfalso
          have := Node.size_pos n
          simp [sizeList] at h
          omega
  | succ fuel ih =>
      intro l h
      cases l with
      | nil => simp [countLeavesAcceptList, preorderList]
      | cons n rest =>
          have hrest : sizeList rest ≤ fuel := by
            have := Node.size_pos n
            simp [sizeList] at h
            omega
          cases n with
          | decision cs =>
              have hcs : sizeList cs ≤ fuel := by
                simp [sizeList, Node.size] at h
                omega
              simp [countLeavesAcceptList, preorderList, countLeavesAccept,
                    Node.preorder, ih cs hcs, ih rest hrest]
          | leaf v =>
              simp [countLeavesAcceptList, preorderList, countLeavesAccept,
                    Node.preorder, ih rest hrest]

theorem countLeavesAccept_eq_preorder (t : Node) :
    countLeavesAccept t = t.preorder := by
  cases t with
  | decision cs =>
      simp [countLeavesAccept, Node.preorder,
            countLeavesAcceptList_eq_preorderList (sizeList cs) cs (le_refl _)]
  | leaf v => simp [countLeavesAccept, Node.preorder]

theorem preorderList_length :
    ∀ (fuel : Nat) (l : List Node), sizeList l ≤ fuel →
      (preorderList l).length = sizeList l := by
  intro fuel
  induction fuel with
  | zero =>
      intro l h
      cases l with
      | nil => simp [preorderList, sizeList]
      | cons n rest =>
          exfalso
          have := Node.size_pos n
          simp [sizeList] at h
          omega
  | succ fuel ih =>
      intro l h
      cases l with
      | nil => simp [preorderList, sizeList]
      | cons n rest =>
          have hrest : sizeList rest ≤ fuel := by
            have := Node.size_pos n
            simp [sizeList] at h
            omega
          cases n with
          | decision cs =>
              have hcs : sizeList cs ≤ fuel := by
                simp [sizeList, Node.size] at h
                omega
              simp [preorderList, Node.preorder, sizeList, Node.size,
                    ih cs hcs, ih rest hrest]
              omega
          | leaf v =>
              simp [preorderList, Node.preorder, sizeList, Node.size,
                    ih rest hrest]
              omega

theorem preorder_length (t : Node) : t.preorder.length = t.size := by
  have h := preorderList_length (sizeList [t]) [t] (le_refl _)
  simp [preorderList, sizeList] at h
  exact h

/-- The three concrete `BuilderState`s: `SplittingState`, `PruningState`,
`StoppingState`. -/
inductive BuilderState where
  | splittingState : BuilderState
  | pruningState : BuilderState
  | stoppingState : BuilderState
deriving Repr, DecidableEq

/-- Python class name of a builder state (used in the transition log line). -/
def BuilderState.className : BuilderState → String
  | .splittingState => "SplittingState"
  | .pruningState => "PruningState"
  | .stoppingState => "StoppingState"

/-- `TreeBuilder`: holds an optional current state.  The `log` field records
the console lines printed so far, so that printing-only behaviour is
observable. -/
structure TreeBuilder where
  _state : Option BuilderState
  log : List String
deriving Repr, DecidableEq

/-- `TreeBuilder.__init__`: no state set, nothing printed. -/
def TreeBuilder.new : TreeBuilder :=
  { _state := none, log := [] }

/-- `TreeBuilder.set_state`: replace the held state and print the transition
line. -/
def TreeBuilder.set_state (b : TreeBuilder) (s : BuilderState) : TreeBuilder :=
  { _state := some s,
    log := b.log ++ ["TreeBuilder: Transição de Estado -> " ++ s.className ++ "."] }

/-- Console line printed by `SplittingState.execute_construction_phase`. -/
def splittingMessage : String :=
  "Estado Splitting: Analisando ganho de informação e dividindo nós."

/-- Console line printed by `PruningState.execute_construction_phase`. -/
def pruningMessage : String :=
  "Estado Pruning: Avaliando complexidade e podando ramos desnecessários."

/-- Console line printed by `StoppingState.execute_construction_phase`. -/
def stoppingMessage : String :=
  "Estado Stopping: Critérios de parada atingidos. Construção finalizada."

/-- Console line printed by `advance_construction` when no state is set. -/
def noStateMessage : String :=
  "TreeBuilder: Nenhum estado definido para avançar."

/-- `execute_construction_phase` of each concrete state: print the phase line,
then (except for `StoppingState`, which has no further transition) move the
builder to the next state via `set_state`. -/
def BuilderState.execute_construction_phase (s : BuilderState) (b : TreeBuilder) :
    TreeBuilder :=
  match s with
  | .splittingState =>
      ({ b with log := b.log ++ [splittingMessage] }).set_state .pruningState
  | .pruningState =>
      ({ b with log := b.log ++ [pruningMessage] }).set_state .stoppingState
  | .stoppingState =>
      { b with log := b.log ++ [stoppingMessage] }

/-- `TreeBuilder.advance_construction`: delegate to the current state, or
print the no-state line if none is set. -/
def TreeBuilder.advance_construction (b : TreeBuilder) : TreeBuilder :=
  match b._state with
  | some s => s.execute_construction_phase b
  | none => { b with log := b.log ++ [noStateMessage] }

/-- `advance_construction` iterated `n` times. -/
def TreeBuilder.advanceN (b : TreeBuilder) : Nat → TreeBuilder
  | 0 => b
  | n + 1 => (b.advance_construction).advanceN n

/-- Leaf `LeafNode("Folha 1")` of the demo script. -/
def folha1 : Node := Node.leaf "Folha 1"

/-- Leaf `LeafNode("Folha 2")` of the demo script. -/
def folha2 : Node := Node.leaf "Folha 2"

/-- Leaf `LeafNode("Folha 3")` of the demo script. -/
def folha3 : Node := Node.leaf "Folha 3"

/-- `child_decision_node` of the demo script: a decision node that receives
`folha2` then `folha3` via `add_child_node`. -/
def demoChild : Node :=
  Node.decision (add_child_node (add_child_node [] folha2) folha3)

/-- `root` of the demo script: a decision node that receives `demoChild` then
`folha1` via `add_child_node`. -/
def demoRoot : Node :=
  Node.decision (add_child_node (add_child_node [] demoChild) folha1)

/-!
Heap-level model, for the frame property.  Python nodes are mutable objects on
a heap; a `DecisionNode` object holds a list of references to its children.
`NodeData` is the per-object payload, a `Heap` maps object ids to payloads,
and the iterator and visitor are re-read as state transformers that carry the
heap, exactly as the source reads it (`self.stack.pop()`, `node.children`,
`visitor.visit_decision(self)`): the heap component records every write the
source could perform, so preserving it is precisely read-only-ness.
-/

/-- Payload of a Python node object: a `DecisionNode`'s children reference
list, or a `LeafNode`'s string value. -/
inductive NodeData where
  | decision (children : List Nat) : NodeData
  | leaf (value : String) : NodeData
deriving Repr, DecidableEq

/-- The heap: object ids (positions) to node payloads. -/
abbrev Heap := List NodeData

/-- Heap-level `PreOrderIterator`: the heap plus the stack of node ids. -/
structure HIterator where
  heap : Heap
  stack : List Nat
deriving Repr, DecidableEq

/-- Heap-level `PreOrderIterator.__next__`: pop the top id; if it refers to a
`DecisionNode`, push its children ids so the leftmost is on top; return the
id together with the whole post-state (heap and stack). -/
def HIterator.next (it : HIterator) : Option (Nat × HIterator) :=
  match it.stack with
  | [] => none
  | i :: rest =>
      match it.heap[i]? with
      | some (NodeData.decision cs) => some (i, ⟨it.heap, cs ++ rest⟩)
      | _ => some (i, ⟨it.heap, rest⟩)

/-- Fuelled full consumption of a heap-level iterator: yielded ids and final
state. -/
def HIterator.consumeFuel : Nat → HIterator → List Nat × HIterator
  | 0, it => ([], it)
  | fuel + 1, it =>
      match it.next with
      | none => ([], it)
      | some (i, it') =>
          let r := HIterator.consumeFuel fuel it'
          (i :: r.1, r.2)

mutual
/-- Heap-level `accept_visitor` for the sample visitors (both traverse
identically, differing only in printed text): dispatch on the payload of `i`;
a decision node prints and then runs its children in order, a leaf only
prints.  Returns the heap after the call and the visit order. -/
def hAccept : Nat → Nat → Heap → Heap × List Nat
  | 0, _, h => (h, [])
  | fuel + 1, i, h =>
      match h[i]? with
      | some (NodeData.decision cs) =>
          let r := hAcceptList fuel cs h
          (r.1, i :: r.2)
      | some (NodeData.leaf _) => (h, [i])
      | none => (h, [])
termination_by fuel i h => (fuel, 0)

/-- The `for child in node.children` loop of `visit_decision`, heap-level. -/
def hAcceptList : Nat → List Nat → Heap → Heap × List Nat
  | _, [], h => (h, [])
  | fuel, c :: rest, h =>
      let r := hAccept fuel c h
      let r2 := hAcceptList fuel rest r.1
      (r2.1, r.2 ++ r2.2)
termination_by fuel l h => (fuel, l.length + 1)
end

theorem HIterator.next_heap {it it' : HIterator} {i : Nat}
    (h : it.next = some (i, it')) : it'.heap = it.heap := by
  obtain ⟨heap, stack⟩ := it
  cases stack with
  | nil => simp [HIterator.next] at h
  | cons j rest =>
      simp only [HIterator.next] at h
      split at h <;> (obtain ⟨h1, h2⟩ := h) <;> rfl

theorem consumeFuel_heap (fuel : Nat) (it : HIterator) :
    (HIterator.consumeFuel fuel it).2.heap = it.heap := by
  induction fuel generalizing it with
  | zero => simp [HIterator.consumeFuel]
  | succ fuel ih =>
      cases hn : it.next with
      | none => simp [HIterator.consumeFuel, hn]
      | some p =>
          obtain ⟨i, it'⟩ := p
          simp [HIterator.consumeFuel, hn, ih it', HIterator.next_heap hn]

theorem hAccept_heap_all (fuel : Nat) :
    (∀ (i : Nat) (h : Heap), (hAccept fuel i h).1 = h) ∧
    (∀ (l : List Nat) (h : Heap), (hAcceptList fuel l h).1 = h) := by
  induction fuel with
  | zero =>
      constructor
      · intro i h
        simp [hAccept]
      · intro l
        induction l with
        | nil => intro h; simp [hAcceptList]
        | cons c rest ih =>
            intro h
            simp [hAcceptList, hAccept, ih]
  | succ fuel ih =>
      have hA : ∀ (i : Nat) (h : Heap), (hAccept (fuel + 1) i h).1 = h := by
        intro i h
        cases hj : h[i]? with
        | none => simp [hAccept, hj]
        | some d =>
            cases d with
            | decision cs => simp [hAccept, hj, ih.2 cs h]
            | leaf v => simp [hAccept, hj]
      constructor
      · exact hA
      · intro l
        induction l with
        | nil => intro h; simp [hAcceptList]
        | cons c rest ihl =>
            intro h
            simp [hAcceptList, hA c h, ihl]

theorem advanceN_add (b : TreeBuilder) (m n : Nat) :
    b.advanceN (m + n) = (b.advanceN m).advanceN n := by
  induction m generalizing b with
  | zero => simp [TreeBuilder.advanceN]
  | succ m ih =>
      have : m + 1 + n = (m + n) + 1 := by omega
      rw [this]
      simp only [TreeBuilder.advanceN]
      exact ih b.advance_construction

theorem advance_stopping (b : TreeBuilder)
    (h : b._state = some BuilderState.stoppingState) :
    (b.advance_construction)._state = some BuilderState.stoppingState ∧
    (b.advance_construction).log = b.log ++ [stoppingMessage] := by
  obtain ⟨s, log⟩ := b
  simp at h
  subst h
  simp [TreeBuilder.advance_construction, BuilderState.execute_construction_phase]

theorem advanceN_stopping (n : Nat) (b : TreeBuilder)
    (h : b._state = some BuilderState.stoppingState) :
    (b.advanceN n)._state = some BuilderState.stoppingState := by
  induction n generalizing b with
  | zero => simpa [TreeBuilder.advanceN] using h
  | succ n ih =>
      simp only [TreeBuilder.advanceN]
      exact ih _ (advance_stopping b h).1

/-- C1: the pre-order iterator built from any root yields exactly the
recursive pre-order of the tree: the root first, then, for a decision node
with children `c1 … ck`, the entire pre-order of `c1`, then of `c2`, …, in
insertion order — so every node appears before all of its descendants. -/
theorem iterator_yields_preorder (t : Node) :
    (PreOrderIterator.init (some t)).drain = t.preorder ∧
    ((PreOrderIterator.init (some t)).drain).head? = some t ∧
    (∀ cs : List Node,
      (PreOrderIterator.init (some (Node.decision cs))).drain =
        Node.decision cs :: preorderList cs) := by
  refine ⟨drain_init t, ?_, ?_⟩
  · rw [drain_init]
    cases t <;> simp [Node.preorder]
  · intro cs
    rw [drain_init]
    simp [Node.preorder]

/-- C2: running `accept_visitor` with either sample visitor on any root
visits the nodes in exactly the order the pre-order iterator yields them,
and the number of visits equals the number of nodes of the tree (each node
is visited exactly once). -/
theorem visitors_match_iterator (t : Node) :
    depthAccept t = (PreOrderIterator.init (some t)).drain ∧
    countLeavesAccept t = (PreOrderIterator.init (some t)).drain ∧
    (depthAccept t).length = t.size ∧
    (countLeavesAccept t).length = t.size := by
  rw [drain_init, depthAccept_eq_preorder, countLeavesAccept_eq_preorder,
      preorder_length]
  exact ⟨rfl, rfl, rfl, rfl⟩

/-- C3: on the demo tree (root decision node with children: a decision node
holding leaves "Folha 2" and "Folha 3", then leaf "Folha 1"), the iterator
yields root, child decision node, Folha 2, Folha 3, Folha 1, and is then
exhausted (empty stack; a further pull signals `StopIteration`). -/
theorem demo_preorder_sequence :
    (PreOrderIterator.init (some demoRoot)).consume =
      ([demoRoot, demoChild, folha2, folha3, folha1],
        (⟨[]⟩ : PreOrderIterator)) ∧
    PreOrderIterator.next ⟨[]⟩ = none := by
  constructor
  · rw [consume_final]
    simp [PreOrderIterator.init, demoRoot, demoChild, folha1, folha2, folha3,
          add_child_node, preorderList, Node.preorder]
  · rfl

/-- C4: edge cases of the iterator: no root gives the empty sequence; a
single leaf gives just that leaf; a childless decision node gives just that
node. -/
theorem iterator_edge_cases :
    (PreOrderIterator.init none).drain = [] ∧
    (∀ v : String,
      (PreOrderIterator.init (some (Node.leaf v))).drain = [Node.leaf v]) ∧
    (PreOrderIterator.init (some (Node.decision []))).drain =
      [Node.decision []] := by
  refine ⟨?_, ?_, ?_⟩
  · simp [PreOrderIterator.drain, PreOrderIterator.init, consume_final,
          preorderList]
  · intro v
    rw [drain_init]
    simp [Node.preorder]
  · rw [drain_init]
    simp [Node.preorder, preorderList]

/-- C5: starting the builder at `SplittingState`, the first advance moves it
to `PruningState`, the second to `StoppingState`, the third re-executes
`StoppingState`'s phase and stays there; any advance from `StoppingState`
keeps the state and only appends the stopping phase line, so after three or
more advances the state is always `StoppingState`. -/
theorem builder_state_machine :
    ((((TreeBuilder.new).set_state BuilderState.splittingState).advanceN 1))._state
      = some BuilderState.pruningState ∧
    ((((TreeBuilder.new).set_state BuilderState.splittingState).advanceN 2))._state
      = some BuilderState.stoppingState ∧
    ((((TreeBuilder.new).set_state BuilderState.splittingState).advanceN 3))._state
      = some BuilderState.stoppingState ∧
    (∀ b : TreeBuilder, b._state = some BuilderState.stoppingState →
      (b.advance_construction)._state = some BuilderState.stoppingState ∧
      (b.advance_construction).log = b.log ++ [stoppingMessage]) ∧
    (∀ n : Nat,
      ((((TreeBuilder.new).set_state BuilderState.splittingState).advanceN (3 + n)))._state
        = some BuilderState.stoppingState) := by
  refine ⟨rfl, rfl, rfl, advance_stopping, ?_⟩
  intro n
  rw [advanceN_add]
  exact advanceN_stopping n _ rfl

/-- Witness for C5 at a concrete builder whose state is `StoppingState`. -/
theorem builder_state_machine_witness :
    (((⟨some BuilderState.stoppingState, []⟩ : TreeBuilder).advance_construction)._state
      = some BuilderState.stoppingState) ∧
    ((⟨some BuilderState.stoppingState, []⟩ : TreeBuilder).advance_construction).log
      = [] ++ [stoppingMessage] :=
  builder_state_machine.2.2.2.1 ⟨some BuilderState.stoppingState, []⟩ rfl

/-- C6 counterexample: the iterator is not restartable.  For the concrete
root `LeafNode("Folha 1")`, the first full pass yields the leaf, but pulling
again from the same iterator object (via `__iter__`, which returns the object
itself) yields the empty sequence, not the pre-order sequence again. -/
theorem iterator_not_restartable :
    ((PreOrderIterator.init (some (Node.leaf "Folha 1"))).consume).1 =
      [Node.leaf "Folha 1"] ∧
    (((PreOrderIterator.init (some (Node.leaf "Folha 1"))).consume).2.iterSelf).consume.1
      = [] ∧
    ([] : List Node) ≠ [Node.leaf "Folha 1"] := by
  refine ⟨?_, ?_, by simp⟩
  · rw [consume_final]
    simp [PreOrderIterator.init, preorderList, Node.preorder]
  · rw [consume_final, consume_final]
    simp [PreOrderIterator.iterSelf, preorderList]

/-- C6 (amended): the iterator is single-pass.  For every optional root,
after the iterator has been fully consumed, iterating the same object again
(via `__iter__`, which returns the object itself) yields nothing: the second
pass is empty and leaves the stack empty. -/
theorem iterator_single_pass (root : Option Node) :
    (((PreOrderIterator.init root).consume).2.iterSelf).consume =
      ([], (⟨[]⟩ : PreOrderIterator)) := by
  rw [consume_final, consume_final]
  simp [PreOrderIterator.iterSelf, preorderList]

/-- C7: a pull signals exhaustion (`StopIteration`, modelled as `none`) iff
the traversal stack is empty at that pull — the only failure condition — and
the iterator is single-pass: after full consumption the stack is empty, so
every further pull signals exhaustion and yields no node. -/
theorem exhaustion_iff_empty_stack (it : PreOrderIterator) :
    (it.next = none ↔ it.stack = []) ∧
    it.consume.2.stack = [] ∧
    it.consume.2.next = none := by
  refine ⟨?_, ?_, ?_⟩
  · obtain ⟨l⟩ := it
    cases l <;> simp [PreOrderIterator.next]
  · rw [consume_final]
  · rw [consume_final]
    rfl

/-- C8: `advance_construction` on a builder with no state set is a graceful
no-op-with-message: the held state stays unset and the only effect is the
printed no-state line. -/
theorem advance_without_state (b : TreeBuilder) (h : b._state = none) :
    (b.advance_construction)._state = none ∧
    (b.advance_construction).log = b.log ++ [noStateMessage] := by
  obtain ⟨s, log⟩ := b
  simp at h
  subst h
  simp [TreeBuilder.advance_construction]

/-- Witness for C8 at the freshly constructed builder. -/
theorem advance_without_state_witness :
    ((TreeBuilder.new).advance_construction)._state = none ∧
    ((TreeBuilder.new).advance_construction).log =
      (TreeBuilder.new).log ++ [noStateMessage] :=
  advance_without_state TreeBuilder.new rfl

/-- C9: `add_child_node` appends the new node at the end of the children
list: the result is the old list followed by the node, so the existing
children and their order are untouched and the new node is last; the
operation is total (no identity or cycle check ever rejects it). -/
theorem add_child_node_appends (cs : List Node) (n : Node) :
    add_child_node cs n = cs ++ [n] ∧
    (add_child_node cs n).take cs.length = cs ∧
    (add_child_node cs n).getLast? = some n := by
  refine ⟨rfl, ?_, ?_⟩
  · simp [add_child_node]
  · simp [add_child_node]

/-- C10: traversal and visiting are read-only on the heap of node objects.
A single `__next__`, a fuelled full consumption, and the (heap-carrying)
visitor runs all return the heap unchanged: every decision node's children
list and every leaf's value are exactly as before. -/
theorem traversal_read_only :
    (∀ (it it' : HIterator) (i : Nat),
      it.next = some (i, it') → it'.heap = it.heap) ∧
    (∀ (fuel : Nat) (it : HIterator),
      (HIterator.consumeFuel fuel it).2.heap = it.heap) ∧
    (∀ (fuel i : Nat) (h : Heap), (hAccept fuel i h).1 = h) ∧
    (∀ (fuel : Nat) (l : List Nat) (h : Heap),
      (hAcceptList fuel l h).1 = h) := by
  refine ⟨?_, consumeFuel_heap, ?_, ?_⟩
  · intro it it' i h
    exact HIterator.next_heap h
  · intro fuel i h
    exact (hAccept_heap_all fuel).1 i h
  · intro fuel l h
    exact (hAccept_heap_all fuel).2 l h

/-- Witness for C10: a concrete one-leaf heap, iterated and visited. -/
theorem traversal_read_only_witness :
    ((⟨[NodeData.leaf "a"], []⟩ : HIterator)).heap =
      ((⟨[NodeData.leaf "a"], [0]⟩ : HIterator)).heap ∧
    (HIterator.consumeFuel 2 ⟨[NodeData.leaf "a"], [0]⟩).2.heap =
      ((⟨[NodeData.leaf "a"], [0]⟩ : HIterator)).heap ∧
    (hAccept 2 0 [NodeData.leaf "a"]).1 = [NodeData.leaf "a"] :=
  ⟨traversal_read_only.1 ⟨[NodeData.leaf "a"], [0]⟩ ⟨[NodeData.leaf "a"], []⟩ 0 rfl,
   traversal_read_only.2.1 2 ⟨[NodeData.leaf "a"], [0]⟩,
   traversal_read_only.2.2.1 2 0 [NodeData.leaf "a"]⟩
